import Mathlib

/-!
Verification of the tsearch stressor (`src/stress-tsearch.c`).

The source drives repeated populate / verify-lookup / drain cycles over a
binary search tree.  The tree operations themselves (`tsearch`, `tfind`,
`tdelete`) come from `<search.h>` and the comparison function
`stress_sort_cmp_int32` from `core-sort.c`; neither is part of `src/`, so
those operations are modelled from the specification (section 4.2).  The
benchmark loop, key generation and error paths are translated directly from
`stress_tsearch` (lines 64-138 of `src/stress-tsearch.c`).
-/

namespace StressTsearch

/-- The `(int32_t)` cast of line 90: reduce a natural number modulo `2^32`
and reinterpret the result as a signed 32-bit value. -/
def toSigned32 (x : Nat) : Int :=
  if x % 2 ^ 32 < 2 ^ 31 then ((x % 2 ^ 32 : Nat) : Int)
  else ((x % 2 ^ 32 : Nat) : Int) - 2 ^ 32

/-- Key generation from line 90:
`data[i] = (int32_t)(((stress_mwc16() & 0xfff) << TSEARCH_SIZE_SHIFT) ^ i)`
with `TSEARCH_SIZE_SHIFT = 22`.  `r` is the 16-bit draw from the external
pseudo-random source (`stress_mwc16` lives outside `src/`); `& 0xfff` is
`% 4096`, the 32-bit shift wraps modulo `2^32`, and the xor with the index
`i` is truncated back to 32 bits by the cast. -/
def keyGen (r i : Nat) : Int :=
  toSigned32 ((r % 4096 * 2 ^ 22) % 2 ^ 32 ^^^ i)

/-- Modelled from the spec: the unbalanced binary search tree that
`tsearch`/`tfind`/`tdelete` (from `<search.h>`, not under `src/`) operate
on.  Keys are the signed 32-bit values held in the `data` buffer; the
comparison function `stress_sort_cmp_int32` (from `core-sort.c`, not under
`src/`) is the standard order on signed 32-bit integers, modelled by the
order on `Int`. -/
inductive Tree where
  | leaf : Tree
  | node : Tree → Int → Tree → Tree
deriving DecidableEq

/-- In-order traversal of the keys of a tree. -/
def Tree.keys : Tree → List Int
  | .leaf => []
  | .node l x r => l.keys ++ x :: r.keys

/-- Modelled from the spec: `insert(root, keyRef)` (section 4.2) — descend
comparing the key at each node; on an equal key return the tree unchanged,
otherwise link a new leaf at the insertion point. -/
def insert (k : Int) : Tree → Tree
  | .leaf => .node .leaf k .leaf
  | .node l x r =>
    if k < x then .node (insert k l) x r
    else if x < k then .node l x (insert k r)
    else .node l x r

/-- Modelled from the spec: `find(root, keyRef)` (section 4.2) — descend
comparing the key; return the stored key of the matching node, or a
not-found result. -/
def tfind (k : Int) : Tree → Option Int
  | .leaf => none
  | .node l x r =>
    if k < x then tfind k l
    else if x < k then tfind k r
    else some x

/-- Modelled from the spec: remove and return the leftmost (minimum) key of
a tree, the in-order successor search used by two-children deletion. -/
def delMin : Tree → Option (Int × Tree)
  | .leaf => none
  | .node l x r =>
    match delMin l with
    | none => some (x, r)
    | some (m, l₂) => some (m, .node l₂ x r)

/-- Modelled from the spec: rebuild the tree after the root of a subtree is
deleted — no left child: promote the right subtree; no right child: promote
the left subtree; two children: promote the in-order successor (leftmost
key of the right subtree). -/
def deleteRoot (l r : Tree) : Tree :=
  match l with
  | .leaf => r
  | _ =>
    match delMin r with
    | none => l
    | some (m, r₂) => .node l m r₂

/-- Modelled from the spec: `delete(root, keyRef)` (section 4.2) — descend
to the matching node, remove it preserving the ordering invariant, and
report not-found when the key is absent. -/
def tdelete (k : Int) : Tree → Option Tree
  | .leaf => none
  | .node l x r =>
    if k < x then (tdelete k l).map (fun l₂ => .node l₂ x r)
    else if x < k then (tdelete k r).map (fun r₂ => .node l x r₂)
    else some (deleteRoot l r)

/-- The BST ordering invariant (section 3 of the spec): at every node all
left keys are smaller and all right keys are larger. -/
def BST : Tree → Prop
  | .leaf => True
  | .node l x r =>
    (∀ y ∈ l.keys, y < x) ∧ (∀ y ∈ r.keys, x < y) ∧ BST l ∧ BST r

/-- Insert every key of a list, left to right (the populate phase's use of
the tree). -/
def insertList (ks : List Int) (t : Tree) : Tree :=
  ks.foldl (fun t k => insert k t) t

/-- One iteration of the cleanup/drain loops: `tdelete` leaves the tree
unchanged when the key is absent. -/
def deleteStep (k : Int) (t : Tree) : Tree :=
  match tdelete k t with
  | none => t
  | some t₂ => t₂

/-- Delete every key of a list, left to right. -/
def deleteList (ks : List Int) (t : Tree) : Tree :=
  ks.foldl (fun t k => deleteStep k t) t

/-- Diagnostics emitted through the external failure/verification reporter
(`pr_err` line 94, `pr_fail` lines 79, 107, 113, 126). -/
inductive Diag where
  | callocFail : Diag
  | allocFail : Nat → Diag
  | lookupNotFound : Nat → Diag
  | lookupMismatch : Nat → Int → Int → Diag
  | deleteNotFound : Nat → Diag
deriving DecidableEq

/-- Return value of `stress_tsearch`: `EXIT_SUCCESS` (line 137) or
`EXIT_NO_RESOURCE` (line 80). -/
inductive ExitCode where
  | success : ExitCode
  | noResource : ExitCode
deriving DecidableEq

/-- External collaborators of the loop, each a stream consumed in order:
`rand` is the `stress_mwc16` pseudo-random source indexed by draw count,
`allocOk` tells whether the node allocation inside the a-th `tsearch` call
succeeds, `flag` is `keep_stressing_flag()` indexed by consultation count,
`keep` is `keep_stressing(args)` as a function of the bogo-op counter at
the moment it is consulted, `verify` is `g_opt_flags & OPT_FLAGS_VERIFY`,
and `callocOk` tells whether the `calloc` of line 78 succeeds.  All of
these live outside `src/` and are modelled from the spec (section 6). -/
structure Env where
  rand : Nat → Nat
  allocOk : Nat → Bool
  flag : Nat → Bool
  keep : Nat → Bool
  verify : Bool
  callocOk : Bool

/-- Result of the populate phase: the refilled `data` buffer, the tree, the
failing index if a node allocation failed, and the advanced stream
indices. -/
structure PopResult where
  data : List Int
  t : Tree
  failIdx : Option Nat
  ri : Nat
  ai : Nat

/-- Populate phase, lines 89-100: for each index write
`data[i] = keyGen ...` and insert it; on allocation failure delete
`data[j]` for `j < i` and abort. -/
def popGo (rand : Nat → Nat) (allocOk : Nat → Bool) :
    Nat → Nat → Nat → Nat → List Int → Tree → PopResult
  | ri, ai, _, 0, data, t => ⟨data, t, none, ri, ai⟩
  | ri, ai, i, rem + 1, data, t =>
    let k := keyGen (rand ri) i
    let data₂ := data ++ [k]
    if allocOk ai then
      popGo rand allocOk (ri + 1) (ai + 1) (i + 1) rem data₂ (insert k t)
    else
      ⟨data₂, deleteList (data₂.take i) t, some i, ri + 1, ai + 1⟩

/-- The keys one populate phase generates starting at draw index `ri` and
element index `i`. -/
def genKeys (rand : Nat → Nat) : Nat → Nat → Nat → List Int
  | _, _, 0 => []
  | ri, i, rem + 1 => keyGen (rand ri) i :: genKeys rand (ri + 1) (i + 1) rem

/-- Verification block of the lookup phase, lines 105-119: when
verification is on, report a missing element, or a found element whose
stored value differs from `data[i]`. -/
def lookupVerify (verify : Bool) (i : Nat) (expected : Int)
    (result : Option Int) : List Diag :=
  if verify then
    match result with
    | none => [.lookupNotFound i]
    | some v =>
      if v ≠ expected then [.lookupMismatch i v expected] else []
  else []

/-- Verification check of the delete phase, lines 125-128: when
verification is on and `tdelete` reported not-found, report it. -/
def deleteVerify (verify : Bool) (i : Nat) (result : Option Tree) :
    List Diag :=
  if verify ∧ result = none then [.deleteNotFound i] else []

/-- Result of the lookup phase: emitted diagnostics, number of elements
scanned, and the advanced `keep_stressing_flag` consultation index. -/
structure LookResult where
  diags : List Diag
  scanned : Nat
  fi : Nat

/-- Lookup phase, lines 102-120: the loop condition
`keep_stressing_flag() && i < n` consults the flag before every element
(and once more when `i = n`) and stops the scan at the first false. -/
def lookGo (flag : Nat → Bool) (verify : Bool) (t : Tree) :
    List Int → Nat → Nat → LookResult
  | [], fi, _ => ⟨[], 0, fi + 1⟩
  | k :: rest, fi, i =>
    if flag fi then
      let res := lookGo flag verify t rest (fi + 1) (i + 1)
      ⟨lookupVerify verify i k (tfind k t) ++ res.diags,
        res.scanned + 1, res.fi⟩
    else ⟨[], 0, fi + 1⟩

/-- Result of the delete phase: the drained tree, emitted diagnostics, and
the number of elements processed. -/
structure DelResult where
  t : Tree
  diags : List Diag
  processed : Nat

/-- Delete phase, lines 122-129: every element is deleted unconditionally;
the loop has no early exit. -/
def delGo (verify : Bool) : List Int → Nat → Tree → DelResult
  | [], _, t => ⟨t, [], 0⟩
  | k :: rest, i, t =>
    let res := delGo verify rest (i + 1) (deleteStep k t)
    ⟨res.t, deleteVerify verify i (tdelete k t) ++ res.diags,
      res.processed + 1⟩

/-- Observable state threaded through the do-while loop: the `data`
buffer, the bogo-op counter, the stream indices (`ri` random draws, `ai`
node allocations, `fi` flag consultations), the diagnostics emitted so
far, the tree left by the most recent cycle, the element count the most
recent lookup phase scanned, and whether the run aborted. -/
structure LoopState where
  data : List Int
  counter : Nat
  ri : Nat
  ai : Nat
  fi : Nat
  diags : List Diag
  lastTree : Tree
  lastScanned : Nat
  aborted : Bool

/-- One iteration of the do-while body, lines 85-130: populate a fresh
tree from a regenerated buffer; on allocation failure report, clean up and
abort (skipping `inc_counter`); otherwise run the lookup and delete phases
and increment the counter. -/
def cycle (env : Env) (n : Nat) (s : LoopState) : LoopState :=
  let p := popGo env.rand env.allocOk s.ri s.ai 0 n [] Tree.leaf
  match p.failIdx with
  | some i =>
    { s with
      data := p.data
      ri := p.ri
      ai := p.ai
      diags := s.diags ++ [Diag.allocFail i]
      lastTree := p.t
      aborted := true }
  | none =>
    let lk := lookGo env.flag env.verify p.t p.data s.fi 0
    let dl := delGo env.verify p.data 0 p.t
    { data := p.data
      counter := s.counter + 1
      ri := p.ri
      ai := p.ai
      fi := lk.fi
      diags := s.diags ++ lk.diags ++ dl.diags
      lastTree := dl.t
      lastScanned := lk.scanned
      aborted := false }

/-- The do-while loop, lines 85-131: run a cycle, stop on abort, otherwise
consult `keep_stressing(args)` with the just-incremented counter.  `fuel`
bounds the number of iterations so the function is total; every theorem
assumes enough fuel. -/
def runLoop (env : Env) (n : Nat) : Nat → LoopState → LoopState
  | 0, s => s
  | fuel + 1, s =>
    let s₂ := cycle env n s
    if s₂.aborted then s₂
    else if env.keep s₂.counter then runLoop env n fuel s₂ else s₂

/-- State before the loop starts: empty buffer, zero counter, untouched
streams, no diagnostics, no tree. -/
def initState : LoopState := ⟨[], 0, 0, 0, 0, [], .leaf, 0, false⟩

/-- The whole stressor, lines 64-138: a failed `calloc` reports and
returns `EXIT_NO_RESOURCE` before the loop; otherwise the loop runs and
the function returns `EXIT_SUCCESS` — on the normal exit and on the
allocation-failure abort path alike (line 137 is the only return after
line 81). -/
def stressTsearch (env : Env) (n fuel : Nat) : LoopState × ExitCode :=
  if env.callocOk then (runLoop env n fuel initState, ExitCode.success)
  else ({ initState with diags := [Diag.callocFail] }, ExitCode.noResource)

/-- An environment in which every external collaborator cooperates:
allocation always succeeds, cancellation is never requested, verification
is on, and the continuation predicate permits exactly `K` cycles. -/
def envOk (K : Nat) : Env :=
  ⟨fun _ => 0, fun _ => true, fun _ => true, fun c => decide (c < K),
    true, true⟩

/-- An environment in which every node allocation fails. -/
def envNoAlloc : Env :=
  ⟨fun _ => 0, fun _ => false, fun _ => true, fun c => decide (c < 1),
    true, true⟩

/-- An environment in which cancellation is requested from the start. -/
def envCancel : Env :=
  ⟨fun _ => 0, fun _ => true, fun _ => false, fun c => decide (c < 1),
    true, true⟩

/-- An environment in which the key-buffer `calloc` fails. -/
def envNoCalloc : Env :=
  ⟨fun _ => 0, fun _ => true, fun _ => true, fun c => decide (c < 1),
    true, false⟩

/-- An environment whose random stream changes after the first 1024 draws,
so a 1024-element run generates different keys in its second cycle. -/
def envTwoCycles : Env :=
  ⟨fun d => if d < 1024 then 0 else 1, fun _ => true, fun _ => true,
    fun c => decide (c < 2), true, true⟩

theorem toSigned32_inj {x y : Nat} (hx : x < 2 ^ 32) (hy : y < 2 ^ 32)
    (h : toSigned32 x = toSigned32 y) : x = y := by
  unfold toSigned32 at h
  rw [Nat.mod_eq_of_lt hx, Nat.mod_eq_of_lt hy] at h
  split at h <;> split at h <;> omega

theorem xor_mod_two_pow (a b n : Nat) :
    (a ^^^ b) % 2 ^ n = a % 2 ^ n ^^^ b % 2 ^ n := by
  apply Nat.eq_of_testBit_eq
  intro i
  simp only [Nat.testBit_mod_two_pow, Nat.testBit_xor]
  cases Nat.decLt i n with
  | isTrue h => simp [h]
  | isFalse h => simp [h]

theorem keyGen_low_bits (r i : Nat) (hi : i < 2 ^ 22) :
    ((r % 4096 * 2 ^ 22) % 2 ^ 32 ^^^ i) % 2 ^ 22 = i := by
  rw [xor_mod_two_pow]
  have h1 : (r % 4096 * 2 ^ 22) % 2 ^ 32 % 2 ^ 22 = 0 := by
    rw [Nat.mod_mod_of_dvd _ (by norm_num : (2 ^ 22 : Nat) ∣ 2 ^ 32)]
    exact Nat.mul_mod_left _ _
  rw [h1, Nat.mod_eq_of_lt hi, Nat.zero_xor]

theorem keyGen_xor_lt (r i : Nat) (hi : i < 2 ^ 22) :
    (r % 4096 * 2 ^ 22) % 2 ^ 32 ^^^ i < 2 ^ 32 := by
  exact Nat.xor_lt_two_pow (Nat.mod_lt _ (by norm_num))
    (lt_trans hi (by norm_num))

theorem keyGen_inj (r s i j : Nat) (hi : i < 2 ^ 22) (hj : j < 2 ^ 22)
    (h : keyGen r i = keyGen s j) : i = j := by
  have := toSigned32_inj (keyGen_xor_lt r i hi) (keyGen_xor_lt s j hj) h
  have hlow := congrArg (· % 2 ^ 22) this
  simp only [keyGen_low_bits _ _ hi, keyGen_low_bits _ _ hj] at hlow
  exact hlow

theorem keys_insert (k : Int) (t : Tree) :
    ∀ y, y ∈ (insert k t).keys ↔ y = k ∨ y ∈ t.keys := by
  induction t with
  | leaf => simp [insert, Tree.keys]
  | node l x r ihl ihr =>
    intro y
    by_cases h1 : k < x
    · simp only [insert, if_pos h1, Tree.keys, List.mem_append,
        List.mem_cons, ihl y]
      tauto
    · by_cases h2 : x < k
      · simp only [insert, if_neg h1, if_pos h2, Tree.keys,
          List.mem_append, List.mem_cons, ihr y]
        tauto
      · have hxk : x = k := le_antisymm (not_lt.mp h1) (not_lt.mp h2)
        simp only [insert, if_neg h1, if_neg h2, Tree.keys,
          List.mem_append, List.mem_cons]
        subst hxk
        tauto

theorem bst_insert (k : Int) (t : Tree) (h : BST t) : BST (insert k t) := by
  induction t with
  | leaf => simp [insert, BST, Tree.keys]
  | node l x r ihl ihr =>
    obtain ⟨hbl, hbr, hl, hr⟩ := h
    by_cases h1 : k < x
    · simp only [insert, if_pos h1, BST]
      refine ⟨?_, hbr, ihl hl, hr⟩
      intro y hy
      rcases (keys_insert k l y).mp hy with rfl | hy
      · exact h1
      · exact hbl y hy
    · by_cases h2 : x < k
      · simp only [insert, if_neg h1, if_pos h2, BST]
        refine ⟨hbl, ?_, hl, ihr hr⟩
        intro y hy
        rcases (keys_insert k r y).mp hy with rfl | hy
        · exact h2
        · exact hbr y hy
      · simp only [insert, if_neg h1, if_neg h2, BST]
        exact ⟨hbl, hbr, hl, hr⟩

theorem tfind_some_eq (k : Int) (t : Tree) {v : Int}
    (h : tfind k t = some v) : v = k := by
  induction t with
  | leaf => simp [tfind] at h
  | node l x r ihl ihr =>
    by_cases h1 : k < x
    · exact ihl (by simpa [tfind, h1] using h)
    · by_cases h2 : x < k
      · exact ihr (by simpa [tfind, h1, h2] using h)
      · have hxv : x = v := by simpa [tfind, h1, h2] using h
        omega

theorem tfind_complete (k : Int) (t : Tree) (hb : BST t)
    (hm : k ∈ t.keys) : tfind k t = some k := by
  induction t with
  | leaf => simp [Tree.keys] at hm
  | node l x r ihl ihr =>
    obtain ⟨hbl, hbr, hl, hr⟩ := hb
    simp only [Tree.keys, List.mem_append, List.mem_cons] at hm
    rcases hm with hm | rfl | hm
    · have : k < x := hbl k hm
      simp [tfind, this, ihl hl hm]
    · simp [tfind]
    · have h3 : x < k := hbr k hm
      simp only [tfind, if_neg (by omega : ¬k < x), if_pos h3]
      exact ihr hr hm

theorem delMin_ne_none (l : Tree) (x : Int) (r : Tree) :
    delMin (.node l x r) ≠ none := by
  unfold delMin
  cases delMin l with
  | none => simp
  | some p => simp

theorem delMin_none_eq_leaf {t : Tree} (h : delMin t = none) :
    t = .leaf := by
  cases t with
  | leaf => rfl
  | node l x r => exact absurd h (delMin_ne_none l x r)

theorem keys_delMin : ∀ (t : Tree) (m : Int) (t₂ : Tree),
    delMin t = some (m, t₂) → t.keys = m :: t₂.keys := by
  intro t
  induction t with
  | leaf => intro m t₂ h; simp [delMin] at h
  | node l x r ihl ihr =>
    intro m t₂ h
    unfold delMin at h
    cases hdl : delMin l with
    | none =>
      rw [hdl] at h
      simp only [Option.some_inj, Prod.mk.injEq] at h
      rw [delMin_none_eq_leaf hdl, ← h.1, ← h.2]
      simp [Tree.keys]
    | some p =>
      obtain ⟨m₁, l₂⟩ := p
      rw [hdl] at h
      simp only [Option.some_inj, Prod.mk.injEq] at h
      rw [← h.1, ← h.2]
      simp [Tree.keys, ihl m₁ l₂ hdl]

theorem bst_delMin : ∀ (t : Tree) (m : Int) (t₂ : Tree),
    BST t → delMin t = some (m, t₂) → BST t₂ := by
  intro t
  induction t with
  | leaf => intro m t₂ _ h; simp [delMin] at h
  | node l x r ihl ihr =>
    intro m t₂ hb h
    obtain ⟨hbl, hbr, hl, hr⟩ := hb
    unfold delMin at h
    cases hdl : delMin l with
    | none =>
      rw [hdl] at h
      simp only [Option.some_inj, Prod.mk.injEq] at h
      rw [← h.2]
      exact hr
    | some p =>
      obtain ⟨m₁, l₂⟩ := p
      rw [hdl] at h
      simp only [Option.some_inj, Prod.mk.injEq] at h
      rw [← h.2]
      have hkeys := keys_delMin l m₁ l₂ hdl
      refine ⟨?_, hbr, ihl m₁ l₂ hl hdl, hr⟩
      intro y hy
      exact hbl y (by rw [hkeys]; exact List.mem_cons_of_mem _ hy)

theorem bst_sorted (t : Tree) (h : BST t) : t.keys.Sorted (· < ·) := by
  induction t with
  | leaf => simp [Tree.keys]
  | node l x r ihl ihr =>
    obtain ⟨hbl, hbr, hl, hr⟩ := h
    simp only [Tree.keys]
    refine List.pairwise_append.mpr
      ⟨ihl hl, List.pairwise_cons.mpr ⟨hbr, ihr hr⟩, ?_⟩
    intro a ha b hb
    rcases List.mem_cons.mp hb with rfl | hb
    · exact hbl a ha
    · exact lt_trans (hbl a ha) (hbr b hb)

theorem keys_deleteRoot (l r : Tree) :
    ∀ y, y ∈ (deleteRoot l r).keys ↔ y ∈ l.keys ∨ y ∈ r.keys := by
  intro y
  unfold deleteRoot
  cases l with
  | leaf => simp [Tree.keys]
  | node l₁ x₁ r₁ =>
    cases hdm : delMin r with
    | none =>
      rw [delMin_none_eq_leaf hdm]
      simp [delMin, Tree.keys]
    | some p =>
      obtain ⟨m, r₂⟩ := p
      have hkeys := keys_delMin r m r₂ hdm
      simp only [Tree.keys, List.mem_append, List.mem_cons, hkeys]

theorem bst_deleteRoot (l : Tree) (x : Int) (r : Tree)
    (hb : BST (.node l x r)) : BST (deleteRoot l r) := by
  obtain ⟨hbl, hbr, hl, hr⟩ := hb
  unfold deleteRoot
  cases l with
  | leaf => exact hr
  | node l₁ x₁ r₁ =>
    cases hdm : delMin r with
    | none => exact hl
    | some p =>
      obtain ⟨m, r₂⟩ := p
      have hkeys := keys_delMin r m r₂ hdm
      have hm : m ∈ r.keys := by rw [hkeys]; exact List.mem_cons_self _ _
      have hsorted : (m :: r₂.keys).Sorted (· < ·) := by
        rw [← hkeys]; exact bst_sorted r hr
      refine ⟨?_, ?_, hl, bst_delMin r m r₂ hr hdm⟩
      · intro y hy
        exact lt_trans (hbl y hy) (hbr m hm)
      · intro y hy
        exact (List.sorted_cons.mp hsorted).1 y hy

theorem mem_tdelete (k : Int) : ∀ (t : Tree), BST t →
    ∀ (t₂ : Tree), tdelete k t = some t₂ →
    ∀ y, (y ∈ t₂.keys ↔ y ∈ t.keys ∧ y ≠ k) := by
  intro t
  induction t with
  | leaf => intro _ t₂ h; simp [tdelete] at h
  | node l x r ihl ihr =>
    intro hb t₂ h y
    obtain ⟨hbl, hbr, hl, hr⟩ := hb
    by_cases h1 : k < x
    · simp only [tdelete, if_pos h1] at h
      cases hdl : tdelete k l with
      | none => rw [hdl, Option.map_none'] at h; exact Option.noConfusion h
      | some l₂ =>
        rw [hdl, Option.map_some', Option.some_inj] at h
        subst h
        have ihm := ihl hl l₂ hdl y
        simp only [Tree.keys, List.mem_append, List.mem_cons, ihm]
        constructor
        · rintro (⟨hy, hne⟩ | rfl | hy)
          · exact ⟨Or.inl hy, hne⟩
          · exact ⟨Or.inr (Or.inl rfl), by omega⟩
          · exact ⟨Or.inr (Or.inr hy), by have := hbr y hy; omega⟩
        · rintro ⟨hy | rfl | hy, hne⟩
          · exact Or.inl ⟨hy, hne⟩
          · exact Or.inr (Or.inl rfl)
          · exact Or.inr (Or.inr hy)
    · by_cases h2 : x < k
      · simp only [tdelete, if_neg h1, if_pos h2] at h
        cases hdr : tdelete k r with
        | none => rw [hdr, Option.map_none'] at h; exact Option.noConfusion h
        | some r₂ =>
          rw [hdr, Option.map_some', Option.some_inj] at h
          subst h
          have ihm := ihr hr r₂ hdr y
          simp only [Tree.keys, List.mem_append, List.mem_cons, ihm]
          constructor
          · rintro (hy | rfl | ⟨hy, hne⟩)
            · exact ⟨Or.inl hy, by have := hbl y hy; omega⟩
            · exact ⟨Or.inr (Or.inl rfl), by omega⟩
            · exact ⟨Or.inr (Or.inr hy), hne⟩
          · rintro ⟨hy | rfl | hy, hne⟩
            · exact Or.inl hy
            · exact Or.inr (Or.inl rfl)
            · exact Or.inr (Or.inr ⟨hy, hne⟩)
      · have hxk : x = k := by omega
        subst hxk
        simp only [tdelete, if_neg h1, if_neg h2, Option.some_inj] at h
        subst h
        simp only [keys_deleteRoot l r y, Tree.keys, List.mem_append,
          List.mem_cons]
        constructor
        · rintro (hy | hy)
          · exact ⟨Or.inl hy, by have := hbl y hy; omega⟩
          · exact ⟨Or.inr (Or.inr hy), by have := hbr y hy; omega⟩
        · rintro ⟨hy | rfl | hy, hne⟩
          · exact Or.inl hy
          · omega
          · exact Or.inr hy

theorem bst_tdelete (k : Int) : ∀ (t : Tree), BST t →
    ∀ (t₂ : Tree), tdelete k t = some t₂ → BST t₂ := by
  intro t
  induction t with
  | leaf => intro _ t₂ h; simp [tdelete] at h
  | node l x r ihl ihr =>
    intro hb t₂ h
    have hbc := hb
    obtain ⟨hbl, hbr, hl, hr⟩ := hb
    by_cases h1 : k < x
    · simp only [tdelete, if_pos h1] at h
      cases hdl : tdelete k l with
      | none => rw [hdl, Option.map_none'] at h; exact Option.noConfusion h
      | some l₂ =>
        rw [hdl, Option.map_some', Option.some_inj] at h
        subst h
        refine ⟨?_, hbr, ihl hl l₂ hdl, hr⟩
        intro y hy
        exact hbl y ((mem_tdelete k l hl l₂ hdl y).mp hy).1
    · by_cases h2 : x < k
      · simp only [tdelete, if_neg h1, if_pos h2] at h
        cases hdr : tdelete k r with
        | none => rw [hdr, Option.map_none'] at h; exact Option.noConfusion h
        | some r₂ =>
          rw [hdr, Option.map_some', Option.some_inj] at h
          subst h
          refine ⟨hbl, ?_, hl, ihr hr r₂ hdr⟩
          intro y hy
          exact hbr y ((mem_tdelete k r hr r₂ hdr y).mp hy).1
      · simp only [tdelete, if_neg h1, if_neg h2, Option.some_inj] at h
        subst h
        exact bst_deleteRoot l x r hbc

theorem tdelete_none_iff (k : Int) : ∀ (t : Tree), BST t →
    (tdelete k t = none ↔ k ∉ t.keys) := by
  intro t
  induction t with
  | leaf => intro _; simp [tdelete, Tree.keys]
  | node l x r ihl ihr =>
    intro hb
    obtain ⟨hbl, hbr, hl, hr⟩ := hb
    by_cases h1 : k < x
    · rw [show tdelete k (Tree.node l x r)
          = (tdelete k l).map (fun l₂ => Tree.node l₂ x r) by
        simp [tdelete, h1]]
      rw [Option.map_eq_none', ihl hl]
      simp only [Tree.keys, List.mem_append, List.mem_cons]
      constructor
      · intro hk hmem
        rcases hmem with hm | hm | hm
        · exact hk hm
        · omega
        · have := hbr k hm; omega
      · intro hk hm
        exact hk (Or.inl hm)
    · by_cases h2 : x < k
      · rw [show tdelete k (Tree.node l x r)
            = (tdelete k r).map (fun r₂ => Tree.node l x r₂) by
          simp [tdelete, h1, h2]]
        rw [Option.map_eq_none', ihr hr]
        simp only [Tree.keys, List.mem_append, List.mem_cons]
        constructor
        · intro hk hmem
          rcases hmem with hm | hm | hm
          · have := hbl k hm; omega
          · omega
          · exact hk hm
        · intro hk hm
          exact hk (Or.inr (Or.inr hm))
      · have hxk : x = k := by omega
        subst hxk
        simp [tdelete, Tree.keys]

theorem mem_deleteStep (k : Int) (t : Tree) (hb : BST t) (y : Int) :
    y ∈ (deleteStep k t).keys ↔ y ∈ t.keys ∧ y ≠ k := by
  unfold deleteStep
  cases h : tdelete k t with
  | none =>
    have hk : k ∉ t.keys := (tdelete_none_iff k t hb).mp h
    constructor
    · intro hy
      exact ⟨hy, fun hyk => hk (hyk ▸ hy)⟩
    · exact fun hy => hy.1
  | some t₂ => exact mem_tdelete k t hb t₂ h y

theorem bst_deleteStep (k : Int) (t : Tree) (hb : BST t) :
    BST (deleteStep k t) := by
  unfold deleteStep
  cases h : tdelete k t with
  | none => exact hb
  | some t₂ => exact bst_tdelete k t hb t₂ h

theorem deleteList_cons (k : Int) (ks : List Int) (t : Tree) :
    deleteList (k :: ks) t = deleteList ks (deleteStep k t) := rfl

theorem bst_deleteList (ks : List Int) : ∀ (t : Tree), BST t →
    BST (deleteList ks t) := by
  induction ks with
  | nil => intro t hb; exact hb
  | cons k ks ih =>
    intro t hb
    rw [deleteList_cons]
    exact ih _ (bst_deleteStep k t hb)

theorem mem_deleteList (ks : List Int) : ∀ (t : Tree), BST t → ∀ y,
    (y ∈ (deleteList ks t).keys ↔ y ∈ t.keys ∧ y ∉ ks) := by
  induction ks with
  | nil => intro t _ y; simp [deleteList]
  | cons k ks ih =>
    intro t hb y
    rw [deleteList_cons]
    rw [ih _ (bst_deleteStep k t hb) y, mem_deleteStep k t hb y]
    simp only [List.mem_cons]
    tauto

theorem keys_eq_nil_iff (t : Tree) : t.keys = [] ↔ t = .leaf := by
  cases t with
  | leaf => simp [Tree.keys]
  | node l x r => simp [Tree.keys]

theorem deleteList_eq_leaf (ks : List Int) (t : Tree) (hb : BST t)
    (hsub : ∀ y ∈ t.keys, y ∈ ks) : deleteList ks t = .leaf := by
  rw [← keys_eq_nil_iff]
  rw [List.eq_nil_iff_forall_not_mem]
  intro y hy
  obtain ⟨hmem, hnot⟩ := (mem_deleteList ks t hb y).mp hy
  exact hnot (hsub y hmem)

theorem insertList_cons (k : Int) (ks : List Int) (t : Tree) :
    insertList (k :: ks) t = insertList ks (insert k t) := rfl

theorem bst_insertList (ks : List Int) : ∀ (t : Tree), BST t →
    BST (insertList ks t) := by
  induction ks with
  | nil => intro t hb; exact hb
  | cons k ks ih =>
    intro t hb
    rw [insertList_cons]
    exact ih _ (bst_insert k t hb)

theorem mem_insertList (ks : List Int) : ∀ (t : Tree) (y : Int),
    y ∈ (insertList ks t).keys ↔ y ∈ ks ∨ y ∈ t.keys := by
  induction ks with
  | nil => intro t y; simp [insertList]
  | cons k ks ih =>
    intro t y
    rw [insertList_cons, ih, keys_insert]
    simp only [List.mem_cons]
    tauto

theorem bst_leaf : BST .leaf := trivial

theorem drain_leaf (ks : List Int) :
    deleteList ks (insertList ks Tree.leaf) = Tree.leaf := by
  apply deleteList_eq_leaf
  · exact bst_insertList ks _ bst_leaf
  · intro y hy
    rcases (mem_insertList ks Tree.leaf y).mp hy with h | h
    · exact h
    · simp [Tree.keys] at h

theorem genKeys_length (rand : Nat → Nat) :
    ∀ (rem ri i : Nat), (genKeys rand ri i rem).length = rem := by
  intro rem
  induction rem with
  | zero => intro ri i; rfl
  | succ rem ih => intro ri i; simp [genKeys, ih]

theorem genKeys_succ (rand : Nat → Nat) (ri i rem : Nat) :
    genKeys rand ri i (rem + 1)
      = keyGen (rand ri) i :: genKeys rand (ri + 1) (i + 1) rem := rfl

theorem genKeys_zero (rand : Nat → Nat) (ri i : Nat) :
    genKeys rand ri i 0 = [] := rfl

theorem popGo_ok (rand : Nat → Nat) (alloc : Nat → Bool) :
    ∀ (rem ri ai i : Nat) (data : List Int) (t : Tree),
    (∀ a, a < rem → alloc (ai + a) = true) →
    popGo rand alloc ri ai i rem data t =
      ⟨data ++ genKeys rand ri i rem, insertList (genKeys rand ri i rem) t,
        none, ri + rem, ai + rem⟩ := by
  intro rem
  induction rem with
  | zero =>
    intro ri ai i data t _
    simp [popGo, genKeys, insertList]
  | succ rem ih =>
    intro ri ai i data t hok
    have h0 : alloc ai = true := by simpa using hok 0 (Nat.succ_pos rem)
    have hok₂ : ∀ a, a < rem → alloc (ai + 1 + a) = true := by
      intro a ha
      have := hok (a + 1) (by omega)
      rwa [show ai + (a + 1) = ai + 1 + a by omega] at this
    simp only [popGo, h0, if_true]
    rw [ih (ri + 1) (ai + 1) (i + 1) _ _ hok₂]
    have h₁ : ri + 1 + rem = ri + (rem + 1) := by omega
    have h₂ : ai + 1 + rem = ai + (rem + 1) := by omega
    rw [genKeys_succ rand ri i rem, insertList_cons, h₁, h₂]
    simp only [List.append_assoc, List.singleton_append]

theorem popGo_fail (rand : Nat → Nat) (alloc : Nat → Bool) :
    ∀ (f rem ri ai i : Nat) (data : List Int) (t : Tree),
    f < rem → data.length = i →
    (∀ a, a < f → alloc (ai + a) = true) → alloc (ai + f) = false →
    popGo rand alloc ri ai i rem data t =
      ⟨data ++ genKeys rand ri i (f + 1),
        deleteList (data ++ genKeys rand ri i f)
          (insertList (genKeys rand ri i f) t),
        some (i + f), ri + f + 1, ai + f + 1⟩ := by
  intro f
  induction f with
  | zero =>
    intro rem ri ai i data t hf hlen _ hbad
    obtain ⟨rem, rfl⟩ : ∃ r₂, rem = r₂ + 1 := ⟨rem - 1, by omega⟩
    have hb : alloc ai = false := by simpa using hbad
    simp only [popGo, hb, Bool.false_eq_true, if_false]
    have htake : (data ++ [keyGen (rand ri) i]).take i = data := by
      rw [← hlen]
      exact List.take_left _ _
    rw [htake, genKeys_succ rand ri i 0]
    simp [insertList, genKeys_zero]
  | succ f ih =>
    intro rem ri ai i data t hf hlen hok hbad
    obtain ⟨rem, rfl⟩ : ∃ r₂, rem = r₂ + 1 := ⟨rem - 1, by omega⟩
    have h0 : alloc ai = true := by simpa using hok 0 (Nat.succ_pos f)
    have hok₂ : ∀ a, a < f → alloc (ai + 1 + a) = true := by
      intro a ha
      have := hok (a + 1) (by omega)
      rwa [show ai + (a + 1) = ai + 1 + a by omega] at this
    have hbad₂ : alloc (ai + 1 + f) = false := by
      rwa [show ai + 1 + f = ai + (f + 1) by omega]
    simp only [popGo, h0, if_true]
    rw [ih rem (ri + 1) (ai + 1) (i + 1) _ _ (by omega)
      (by simp [hlen]) hok₂ hbad₂]
    have h₁ : ri + 1 + f + 1 = ri + (f + 1) + 1 := by omega
    have h₂ : ai + 1 + f + 1 = ai + (f + 1) + 1 := by omega
    have h₃ : i + 1 + f = i + (f + 1) := by omega
    rw [genKeys_succ rand ri i (f + 1), genKeys_succ rand ri i f,
      insertList_cons, h₁, h₂, h₃]
    simp only [List.append_assoc, List.singleton_append]

theorem delGo_spec (verify : Bool) : ∀ (todo : List Int) (i : Nat) (t : Tree),
    (delGo verify todo i t).t = deleteList todo t ∧
    (delGo verify todo i t).processed = todo.length := by
  intro todo
  induction todo with
  | nil => intro i t; simp [delGo, deleteList]
  | cons k rest ih =>
    intro i t
    simp only [delGo, deleteList_cons, List.length_cons]
    exact ⟨(ih (i + 1) (deleteStep k t)).1,
      by rw [(ih (i + 1) (deleteStep k t)).2]⟩

theorem lookGo_scanned (flag : Nat → Bool) (verify : Bool) (t : Tree) :
    ∀ (todo : List Int) (fi i m : Nat),
    (∀ j, j < m → flag (fi + j) = true) → flag (fi + m) = false →
    (lookGo flag verify t todo fi i).scanned = min todo.length m ∧
    (lookGo flag verify t todo fi i).fi = fi + min todo.length m + 1 := by
  intro todo
  induction todo with
  | nil => intro fi i m _ _; simp [lookGo]
  | cons k rest ih =>
    intro fi i m htrue hfalse
    cases m with
    | zero =>
      have h0 : flag fi = false := by simpa using hfalse
      simp [lookGo, h0]
    | succ m =>
      have h0 : flag fi = true := by simpa using htrue 0 (Nat.succ_pos m)
      have htrue₂ : ∀ j, j < m → flag (fi + 1 + j) = true := by
        intro j hj
        have := htrue (j + 1) (by omega)
        rwa [show fi + (j + 1) = fi + 1 + j by omega] at this
      have hfalse₂ : flag (fi + 1 + m) = false := by
        rwa [show fi + 1 + m = fi + (m + 1) by omega]
      have ihm := ih (fi + 1) (i + 1) m htrue₂ hfalse₂
      simp only [lookGo, h0, if_true, List.length_cons]
      rw [Nat.succ_min_succ]
      exact ⟨by rw [ihm.1], by rw [ihm.2]; omega⟩

theorem lookGo_scanned_of_verify (flag : Nat → Bool) (t : Tree)
    (v₁ v₂ : Bool) : ∀ (todo : List Int) (fi i : Nat),
    (lookGo flag v₁ t todo fi i).scanned
      = (lookGo flag v₂ t todo fi i).scanned := by
  intro todo
  induction todo with
  | nil => intro fi i; rfl
  | cons k rest ih =>
    intro fi i
    by_cases h0 : flag fi
    · simp only [lookGo, h0, if_true]
      rw [ih (fi + 1) (i + 1)]
    · simp only [lookGo, h0, Bool.false_eq_true, if_false]

theorem cycle_ok_fields (env : Env) (n : Nat) (s : LoopState)
    (halloc : ∀ a, env.allocOk a = true) :
    (cycle env n s).counter = s.counter + 1 ∧
    (cycle env n s).aborted = false ∧
    (cycle env n s).lastTree = Tree.leaf ∧
    (cycle env n s).ri = s.ri + n ∧
    (cycle env n s).ai = s.ai + n ∧
    (cycle env n s).data = genKeys env.rand s.ri 0 n ∧
    (cycle env n s).lastScanned
      = (lookGo env.flag env.verify
          (insertList (genKeys env.rand s.ri 0 n) Tree.leaf)
          (genKeys env.rand s.ri 0 n) s.fi 0).scanned := by
  have hpop := popGo_ok env.rand env.allocOk n s.ri s.ai 0 [] Tree.leaf
    (fun a _ => halloc (s.ai + a))
  simp only [cycle, hpop, List.nil_append]
  refine ⟨by trivial, by trivial, ?_, by trivial, by trivial, by trivial,
    by trivial⟩
  rw [(delGo_spec env.verify _ 0 _).1, drain_leaf]

theorem cycle_fail_fields (env : Env) (n : Nat) (s : LoopState) (f : Nat)
    (hf : f < n)
    (hok : ∀ a, a < f → env.allocOk (s.ai + a) = true)
    (hbad : env.allocOk (s.ai + f) = false) :
    (cycle env n s).aborted = true ∧
    (cycle env n s).counter = s.counter ∧
    (cycle env n s).lastTree = Tree.leaf ∧
    (cycle env n s).ri = s.ri + f + 1 ∧
    (cycle env n s).diags = s.diags ++ [Diag.allocFail f] ∧
    (cycle env n s).fi = s.fi := by
  have hpop := popGo_fail env.rand env.allocOk f n s.ri s.ai 0 [] Tree.leaf
    hf rfl hok hbad
  simp only [cycle, hpop, List.nil_append, Nat.zero_add]
  refine ⟨by trivial, by trivial, ?_, by trivial, by trivial, by trivial⟩
  exact drain_leaf _

theorem cycle_counter_cases (env : Env) (n : Nat) (s : LoopState) :
    ((cycle env n s).aborted = true ∧
      (cycle env n s).counter = s.counter) ∨
    ((cycle env n s).aborted = false ∧
      (cycle env n s).counter = s.counter + 1) := by
  simp only [cycle]
  cases hp : (popGo env.rand env.allocOk s.ri s.ai 0 n [] Tree.leaf).failIdx
    with
  | some i => left; simp [hp]
  | none => right; simp [hp]

theorem runLoop_counter_mono (env : Env) (n : Nat) :
    ∀ (fuel : Nat) (s : LoopState),
    s.counter ≤ (runLoop env n fuel s).counter := by
  intro fuel
  induction fuel with
  | zero => intro s; exact le_refl _
  | succ fuel ih =>
    intro s
    have hc := cycle_counter_cases env n s
    have hmono := ih (cycle env n s)
    simp only [runLoop]
    rcases hc with ⟨h1, h2⟩ | ⟨h1, h2⟩
    · simp [h1, h2]
    · by_cases hk : env.keep (cycle env n s).counter = true
      · simp only [h1, hk]
        simp only [Bool.false_eq_true, if_false, if_true]
        omega
      · simp only [h1]
        simp only [Bool.false_eq_true, if_false]
        rw [if_neg hk]
        omega

theorem runLoop_exact (env : Env) (n K : Nat)
    (halloc : ∀ a, env.allocOk a = true)
    (hkeep : ∀ c, env.keep c = decide (c < K)) :
    ∀ (fuel : Nat) (s : LoopState), s.counter < K → K - s.counter ≤ fuel →
    (runLoop env n fuel s).counter = K ∧
    (runLoop env n fuel s).aborted = false ∧
    (runLoop env n fuel s).lastTree = Tree.leaf ∧
    (runLoop env n fuel s).ri = s.ri + (K - s.counter) * n ∧
    (runLoop env n fuel s).data
      = genKeys env.rand (s.ri + (K - s.counter - 1) * n) 0 n := by
  intro fuel
  induction fuel with
  | zero => intro s hc hle; omega
  | succ fuel ih =>
    intro s hc hle
    obtain ⟨hcnt, hab, htree, hri, -, hdata, -⟩ :=
      cycle_ok_fields env n s halloc
    have hstep : runLoop env n (fuel + 1) s
        = if env.keep (cycle env n s).counter = true
          then runLoop env n fuel (cycle env n s) else cycle env n s := by
      simp [runLoop, hab]
    by_cases hK : s.counter + 1 < K
    · have hkp : env.keep (cycle env n s).counter = true := by
        rw [hkeep, hcnt]
        simpa using hK
      rw [hstep, if_pos hkp]
      have hrec := ih (cycle env n s) (by omega) (by omega)
      refine ⟨hrec.1, hrec.2.1, hrec.2.2.1, ?_, ?_⟩
      · rw [hrec.2.2.2.1, hri, hcnt]
        have hq : K - s.counter = (K - s.counter - 1) + 1 := by omega
        rw [hq, Nat.succ_mul]
        have hq₂ : K - (s.counter + 1) = K - s.counter - 1 := by omega
        rw [hq₂]
        omega
      · rw [hrec.2.2.2.2, hri, hcnt]
        have hq : K - s.counter - 1 = (K - (s.counter + 1) - 1) + 1 := by
          omega
        rw [hq, Nat.succ_mul]
        have : s.ri + n + (K - (s.counter + 1) - 1) * n
            = s.ri + ((K - (s.counter + 1) - 1) * n + n) := by omega
        rw [this]
    · have hend : s.counter + 1 = K := by omega
      have hkp : ¬env.keep (cycle env n s).counter = true := by
        rw [hkeep, hcnt]
        simpa using hK
      rw [hstep, if_neg hkp]
      have hone : K - s.counter = 1 := by omega
      refine ⟨by omega, hab, htree, ?_, ?_⟩
      · rw [hri, hone]
        omega
      · rw [hdata, hone]
        simp

/-- C1: for every element count N in the supported range `[1024, 2^22]` and
every sequence of 16-bit pseudo-random draws, the keys
`key[i] = ((r_i & 0xfff) << 22) ^ i` (in wrapping 32-bit signed arithmetic,
line 90) are pairwise distinct: the low 22 bits of each key reproduce its
index exactly. -/
theorem keyGen_pairwise_distinct (r : Nat → Nat) (N : Nat)
    (hNlo : 1024 ≤ N) (hNhi : N ≤ 2 ^ 22)
    (i j : Nat) (hi : i < N) (hj : j < N) (hne : i ≠ j) :
    keyGen (r i) i ≠ keyGen (r j) j := by
  have : 0 < N := by omega
  intro h
  exact hne (keyGen_inj (r i) (r j) i j (lt_of_lt_of_le hi hNhi)
    (lt_of_lt_of_le hj hNhi) h)

theorem keyGen_pairwise_distinct_witness :
    1024 ≤ 1024 ∧ 1024 ≤ 2 ^ 22 ∧ (0 : Nat) < 1024 ∧ (1 : Nat) < 1024 ∧
      keyGen 7 0 ≠ keyGen 7 1 :=
  ⟨by norm_num, by norm_num, by norm_num, by norm_num,
    keyGen_pairwise_distinct (fun _ => 7) 1024 (by norm_num) (by norm_num)
      0 1 (by norm_num) (by norm_num) (by norm_num)⟩

/-- C6: inserting any set of pairwise-distinct keys, in any order, into an
initially empty tree and then looking each key up returns a found result
whose stored value is exactly that key. -/
theorem insert_lookup_roundtrip (ks : List Int) (hnd : ks.Nodup)
    (k : Int) (hk : k ∈ ks) :
    tfind k (insertList ks Tree.leaf) = some k := by
  have hb : BST (insertList ks Tree.leaf) := bst_insertList ks _ bst_leaf
  have hm : k ∈ (insertList ks Tree.leaf).keys := by
    rw [mem_insertList]
    exact Or.inl hk
  exact tfind_complete k _ hb hm

theorem insert_lookup_roundtrip_witness :
    ([5, 3, 8, 1] : List Int).Nodup ∧
      tfind 8 (insertList [5, 3, 8, 1] Tree.leaf) = some 8 :=
  ⟨by decide, insert_lookup_roundtrip [5, 3, 8, 1] (by decide) 8 (by decide)⟩

theorem stressTsearch_alloc_fail (env : Env) (n fuel f : Nat)
    (hcalloc : env.callocOk = true) (hfuel : 1 ≤ fuel) (hf : f < n)
    (hok : ∀ a, a < f → env.allocOk a = true)
    (hbad : env.allocOk f = false) :
    (stressTsearch env n fuel).1.aborted = true ∧
    (stressTsearch env n fuel).1.counter = 0 ∧
    (stressTsearch env n fuel).1.lastTree = Tree.leaf ∧
    (stressTsearch env n fuel).1.ri = f + 1 ∧
    (stressTsearch env n fuel).1.diags = [Diag.allocFail f] ∧
    (stressTsearch env n fuel).2 = ExitCode.success := by
  obtain ⟨fuel, rfl⟩ : ∃ f₂, fuel = f₂ + 1 := ⟨fuel - 1, by omega⟩
  have hcy := cycle_fail_fields env n initState f hf
    (by intro a ha; simpa [initState] using hok a ha)
    (by simpa [initState] using hbad)
  obtain ⟨hab, hcnt, htree, hri, hdiag, -⟩ := hcy
  have hfst : (stressTsearch env n (fuel + 1)).1
      = cycle env n initState := by
    simp [stressTsearch, hcalloc, runLoop, hab]
  have hsnd : (stressTsearch env n (fuel + 1)).2 = ExitCode.success := by
    simp [stressTsearch, hcalloc]
  rw [hfst]
  refine ⟨hab, by rw [hcnt]; rfl, htree, by rw [hri]; simp [initState],
    by rw [hdiag]; simp [initState], hsnd⟩

/-- C2 amended: if node allocation fails at element `i_failed` of the
first populate phase, the loop deletes exactly the keys inserted so far
(leaving an empty tree), reports the failure, and terminates the run
without completing a cycle — but the function's return value is
`EXIT_SUCCESS` (line 137 is the only return after the `goto abort`), the
same value a successful run returns, not a distinguished
resource-exhaustion outcome. -/
theorem alloc_fail_cleanup (env : Env) (n fuel f : Nat)
    (hcalloc : env.callocOk = true) (hfuel : 1 ≤ fuel) (hf : f < n)
    (hok : ∀ a, a < f → env.allocOk a = true)
    (hbad : env.allocOk f = false) :
    (stressTsearch env n fuel).1.aborted = true ∧
    (stressTsearch env n fuel).1.lastTree = Tree.leaf ∧
    (stressTsearch env n fuel).1.counter = 0 ∧
    (stressTsearch env n fuel).1.diags = [Diag.allocFail f] ∧
    (stressTsearch env n fuel).2 = ExitCode.success := by
  obtain ⟨h1, h2, h3, h4, h5, h6⟩ :=
    stressTsearch_alloc_fail env n fuel f hcalloc hfuel hf hok hbad
  exact ⟨h1, h3, h2, h5, h6⟩

theorem alloc_fail_cleanup_witness :
    envNoAlloc.callocOk = true ∧ (0 : Nat) < 1024 ∧
    (stressTsearch envNoAlloc 1024 1).1.lastTree = Tree.leaf ∧
    (stressTsearch envNoAlloc 1024 1).2 = ExitCode.success := by
  have h := alloc_fail_cleanup envNoAlloc 1024 1 0 rfl (by omega)
    (by omega) (fun a ha => absurd ha (by omega)) rfl
  exact ⟨rfl, by omega, h.2.1, h.2.2.2.2⟩

/-- C2 counterexample: a run in which the very first node allocation fails
aborts, yet `stress_tsearch` returns `EXIT_SUCCESS` — exactly the value a
fully successful run returns — so the failure is not propagated as an
outcome distinct from success. -/
theorem alloc_fail_exit_counterexample :
    (stressTsearch envNoAlloc 1024 1).1.aborted = true ∧
    (stressTsearch envNoAlloc 1024 1).2 = ExitCode.success ∧
    (stressTsearch (envOk 1) 1024 1).2 = ExitCode.success := by
  have h := stressTsearch_alloc_fail envNoAlloc 1024 1 0 rfl (by omega)
    (by omega) (fun a ha => absurd ha (by omega)) rfl
  exact ⟨h.1, h.2.2.2.2.2, rfl⟩

/-- C3: with every allocation succeeding and a continuation predicate that
permits exactly `K ≥ 1` cycles, the run's bogo-op counter ends at exactly
`K`, the counter is incremented exactly once per cycle after the delete
phase, and the tree (root) is empty before the first cycle and after the
last one. -/
theorem cycle_count_exact (env : Env) (n K fuel : Nat)
    (hcalloc : env.callocOk = true)
    (halloc : ∀ a, env.allocOk a = true)
    (hkeep : ∀ c, env.keep c = decide (c < K))
    (hK : 1 ≤ K) (hfuel : K ≤ fuel) :
    (stressTsearch env n fuel).1.counter = K ∧
    (∀ s, (cycle env n s).counter = s.counter + 1) ∧
    initState.lastTree = Tree.leaf ∧
    (stressTsearch env n fuel).1.lastTree = Tree.leaf := by
  have hrun := runLoop_exact env n K halloc hkeep fuel initState
    (by simpa [initState] using hK) (by simpa [initState] using hfuel)
  have hfst : (stressTsearch env n fuel).1 = runLoop env n fuel initState := by
    simp [stressTsearch, hcalloc]
  rw [hfst]
  exact ⟨hrun.1, fun s => (cycle_ok_fields env n s halloc).1, rfl,
    hrun.2.2.1⟩

theorem cycle_count_exact_witness :
    (envOk 2).callocOk = true ∧ (1 : Nat) ≤ 2 ∧
    (stressTsearch (envOk 2) 1024 2).1.counter = 2 ∧
    (stressTsearch (envOk 2) 1024 2).1.lastTree = Tree.leaf := by
  have h := cycle_count_exact (envOk 2) 1024 2 2 rfl (fun a => rfl)
    (fun c => rfl) (by omega) (by omega)
  exact ⟨rfl, by omega, h.1, h.2.2.2⟩

/-- C4: in every cycle the lookup phase consults the cancellation flag
once before each element and stops the scan at the first consultation that
reports cancellation (scanning `min N m` elements when the flag turns
false at its m-th consultation), while the delete phase processes every
one of the N keys and drains the tree regardless of the flag. -/
theorem lookup_cancels_delete_completes (flag : Nat → Bool) (verify : Bool)
    (t : Tree) (todo : List Int) (fi i m : Nat)
    (htrue : ∀ j, j < m → flag (fi + j) = true)
    (hfalse : flag (fi + m) = false) :
    (lookGo flag verify t todo fi i).scanned = min todo.length m ∧
    (lookGo flag verify t todo fi i).fi = fi + min todo.length m + 1 ∧
    (∀ (verify₂ : Bool) (todo₂ : List Int) (i₂ : Nat) (t₂ : Tree),
      (delGo verify₂ todo₂ i₂ t₂).processed = todo₂.length ∧
      (delGo verify₂ todo₂ i₂ t₂).t = deleteList todo₂ t₂) := by
  obtain ⟨h1, h2⟩ := lookGo_scanned flag verify t todo fi i m htrue hfalse
  exact ⟨h1, h2, fun v₂ td₂ i₂ t₂ =>
    ⟨(delGo_spec v₂ td₂ i₂ t₂).2, (delGo_spec v₂ td₂ i₂ t₂).1⟩⟩

theorem lookup_cancels_delete_completes_witness :
    (∀ j, j < 1 → (fun x => decide (x < 1)) (0 + j) = true) ∧
    (fun x => decide (x < 1)) (0 + 1) = false ∧
    (lookGo (fun x => decide (x < 1)) true Tree.leaf [5, 6, 7] 0 0).scanned
      = min 3 1 ∧
    (delGo true [5, 6, 7] 0 Tree.leaf).processed = 3 := by
  have h1 : ∀ j, j < 1 → (fun x => decide (x < 1)) (0 + j) = true := by
    intro j hj
    have : j = 0 := by omega
    subst this
    rfl
  have h := lookup_cancels_delete_completes (fun x => decide (x < 1)) true
    Tree.leaf [5, 6, 7] 0 0 1 h1 rfl
  exact ⟨h1, rfl, h.1, (h.2.2 true [5, 6, 7] 0 Tree.leaf).1⟩

/-- C5: with verification enabled, a not-found lookup, a found lookup
whose stored value differs from the expected key, and a not-found delete
each produce exactly one diagnostic report; reporting stops nothing — the
lookup scan is unchanged by verification, the delete phase still processes
every element, and the cycle still increments the counter. -/
theorem verify_reports_nonfatal (i₁ i₂ i₃ : Nat) (e₁ e₂ v : Int)
    (hv : v ≠ e₂) (env : Env) (n : Nat) (s : LoopState)
    (halloc : ∀ a, env.allocOk a = true) :
    lookupVerify true i₁ e₁ none = [Diag.lookupNotFound i₁] ∧
    lookupVerify true i₂ e₂ (some v) = [Diag.lookupMismatch i₂ v e₂] ∧
    deleteVerify true i₃ none = [Diag.deleteNotFound i₃] ∧
    (∀ (flag : Nat → Bool) (t : Tree) (todo : List Int) (fi j : Nat),
      (lookGo flag true t todo fi j).scanned
        = (lookGo flag false t todo fi j).scanned) ∧
    (∀ (vb : Bool) (todo : List Int) (j : Nat) (t : Tree),
      (delGo vb todo j t).processed = todo.length) ∧
    (cycle env n s).counter = s.counter + 1 := by
  refine ⟨by simp [lookupVerify], by simp [lookupVerify, hv],
    by simp [deleteVerify], ?_, ?_, (cycle_ok_fields env n s halloc).1⟩
  · intro flag t todo fi j
    exact lookGo_scanned_of_verify flag t true false todo fi j
  · intro vb todo j t
    exact (delGo_spec vb todo j t).2

theorem verify_reports_nonfatal_witness :
    (3 : Int) ≠ 7 ∧
    lookupVerify true 0 5 none = [Diag.lookupNotFound 0] ∧
    lookupVerify true 1 7 (some 3) = [Diag.lookupMismatch 1 3 7] ∧
    deleteVerify true 2 none = [Diag.deleteNotFound 2] ∧
    (cycle (envOk 1) 4 initState).counter = initState.counter + 1 := by
  have h := verify_reports_nonfatal 0 1 2 5 7 3 (by decide) (envOk 1) 4
    initState (fun a => rfl)
  exact ⟨by decide, h.1, h.2.1, h.2.2.1, h.2.2.2.2.2⟩

/-- C7 amended: the key buffer is refilled at the start of every cycle's
populate phase, not filled once before the cycles: the random source is
consumed once per element per cycle, K·N draws over a K-cycle run, and
after the run the buffer holds the keys generated from the final cycle's
draws. -/
theorem buffer_refilled_every_cycle (env : Env) (n K fuel : Nat)
    (hcalloc : env.callocOk = true)
    (halloc : ∀ a, env.allocOk a = true)
    (hkeep : ∀ c, env.keep c = decide (c < K))
    (hK : 1 ≤ K) (hfuel : K ≤ fuel) :
    (stressTsearch env n fuel).1.ri = K * n ∧
    (stressTsearch env n fuel).1.data
      = genKeys env.rand ((K - 1) * n) 0 n := by
  have hrun := runLoop_exact env n K halloc hkeep fuel initState
    (by simpa [initState] using hK) (by simpa [initState] using hfuel)
  have hfst : (stressTsearch env n fuel).1 = runLoop env n fuel initState := by
    simp [stressTsearch, hcalloc]
  rw [hfst]
  constructor
  · rw [hrun.2.2.2.1]
    simp [initState]
  · rw [hrun.2.2.2.2]
    simp [initState]

theorem buffer_refilled_every_cycle_witness :
    (envOk 2).callocOk = true ∧ (1 : Nat) ≤ 2 ∧
    (stressTsearch (envOk 2) 1024 2).1.ri = 2 * 1024 := by
  have h := buffer_refilled_every_cycle (envOk 2) 1024 2 2 rfl
    (fun a => rfl) (fun c => rfl) (by omega) (by omega)
  exact ⟨rfl, by omega, h.1⟩

/-- C7 counterexample: a two-cycle run over 1024 elements consumes 2048
random draws — twice per element, not once per element over the whole
run — so the key buffer is generated anew each cycle rather than filled
exactly once before the cycles begin. -/
theorem buffer_refilled_counterexample :
    (stressTsearch envTwoCycles 1024 2).1.ri = 2048 ∧ (2048 : Nat) ≠ 1024 := by
  have h := runLoop_exact envTwoCycles 1024 2 (fun a => rfl)
    (fun c => rfl) 2 initState (by simp [initState]) (by simp [initState])
  have hfst : (stressTsearch envTwoCycles 1024 2).1
      = runLoop envTwoCycles 1024 2 initState := by
    simp [stressTsearch, envTwoCycles]
  rw [hfst]
  refine ⟨?_, by omega⟩
  rw [h.2.2.2.1]
  simp [initState]

/-- C8 amended: the counter is monotonically increasing and is incremented
exactly once per cycle whose populate phase completes (the abort path
skips the increment); a cycle whose lookup phase is cut short by
cancellation still increments it. -/
theorem counter_increment_per_cycle (env : Env) (n fuel : Nat)
    (s : LoopState) :
    (((cycle env n s).aborted = true ∧
        (cycle env n s).counter = s.counter) ∨
      ((cycle env n s).aborted = false ∧
        (cycle env n s).counter = s.counter + 1)) ∧
    s.counter ≤ (runLoop env n fuel s).counter :=
  ⟨cycle_counter_cases env n s, runLoop_counter_mono env n fuel s⟩

/-- C8 counterexample: with cancellation requested from the start, the
lookup phase of the single cycle scans 0 of its 1024 elements — the
verify-lookup phase does not run to completion — yet the counter is still
incremented to 1. -/
theorem counter_incomplete_cycle_counterexample :
    (stressTsearch envCancel 1024 1).1.counter = 1 ∧
    (stressTsearch envCancel 1024 1).1.lastScanned = 0 ∧
    (stressTsearch envCancel 1024 1).1.data.length = 1024 := by
  obtain ⟨hcnt, hab, -, -, -, hdata, hscan⟩ :=
    cycle_ok_fields envCancel 1024 initState (fun a => rfl)
  have hkp : ¬envCancel.keep (cycle envCancel 1024 initState).counter
      = true := by
    rw [hcnt]
    simp [envCancel, initState]
  have hfst : (stressTsearch envCancel 1024 1).1
      = cycle envCancel 1024 initState := by
    simp [stressTsearch, runLoop, envCancel]
  rw [hfst]
  refine ⟨by rw [hcnt]; rfl, ?_, by rw [hdata, genKeys_length]⟩
  rw [hscan]
  have hlk := lookGo_scanned envCancel.flag envCancel.verify
    (insertList (genKeys envCancel.rand initState.ri 0 1024) Tree.leaf)
    (genKeys envCancel.rand initState.ri 0 1024) initState.fi 0 0
    (fun j hj => absurd hj (by omega)) rfl
  rw [hlk.1]
  simp

/-- C9: if allocation of the key buffer fails, the run aborts before the
benchmark loop starts — no cycle runs, no node allocation is attempted,
the counter stays zero — and the caller receives `EXIT_NO_RESOURCE`. -/
theorem calloc_fail_aborts (env : Env) (n fuel : Nat)
    (h : env.callocOk = false) :
    (stressTsearch env n fuel).2 = ExitCode.noResource ∧
    (stressTsearch env n fuel).1.counter = 0 ∧
    (stressTsearch env n fuel).1.ai = 0 ∧
    (stressTsearch env n fuel).1.ri = 0 ∧
    (stressTsearch env n fuel).1.lastTree = Tree.leaf := by
  simp [stressTsearch, h, initState]

theorem calloc_fail_aborts_witness :
    envNoCalloc.callocOk = false ∧
    (stressTsearch envNoCalloc 1024 1).2 = ExitCode.noResource ∧
    (stressTsearch envNoCalloc 1024 1).1.counter = 0 := by
  have h := calloc_fail_aborts envNoCalloc 1024 1 rfl
  exact ⟨rfl, h.1, h.2.1⟩

/-- C10 amended: because the loop is do-while, the continuation predicate
is consulted only after a completed cycle, and on every run whose key
buffer allocates and in which no node allocation fails, at least one full
cycle executes and the counter reaches at least 1 — even if the
continuation predicate reports stop from the very start.  (A node
allocation failure in the first populate phase can end such a run with the
counter still 0.) -/
theorem at_least_one_cycle (env : Env) (n fuel : Nat)
    (hcalloc : env.callocOk = true)
    (halloc : ∀ a, env.allocOk a = true) (hfuel : 1 ≤ fuel) :
    1 ≤ (stressTsearch env n fuel).1.counter := by
  obtain ⟨fuel, rfl⟩ : ∃ f, fuel = f + 1 := ⟨fuel - 1, by omega⟩
  obtain ⟨hcnt, hab, -⟩ := cycle_ok_fields env n initState halloc
  have hfst : (stressTsearch env n (fuel + 1)).1
      = runLoop env n (fuel + 1) initState := by
    simp [stressTsearch, hcalloc]
  rw [hfst]
  have hstep : runLoop env n (fuel + 1) initState
      = if env.keep (cycle env n initState).counter = true
        then runLoop env n fuel (cycle env n initState)
        else cycle env n initState := by
    simp [runLoop, hab]
  rw [hstep]
  have hone : (cycle env n initState).counter = 1 := by
    rw [hcnt]
    simp [initState]
  by_cases hk : env.keep (cycle env n initState).counter = true
  · rw [if_pos hk]
    have := runLoop_counter_mono env n fuel (cycle env n initState)
    omega
  · rw [if_neg hk]
    omega

theorem at_least_one_cycle_witness :
    (envCancel.callocOk = true) ∧
    1 ≤ (stressTsearch envCancel 1024 1).1.counter :=
  ⟨rfl, at_least_one_cycle envCancel 1024 1 rfl (fun a => rfl) (by omega)⟩

/-- C10 counterexample: a run whose key buffer allocates successfully but
whose first node allocation fails completes zero cycles: its counter stays
0 even though the key buffer allocation succeeded. -/
theorem at_least_one_cycle_counterexample :
    envNoAlloc.callocOk = true ∧
    (stressTsearch envNoAlloc 1024 1).1.counter = 0 := by
  have h := stressTsearch_alloc_fail envNoAlloc 1024 1 0 rfl (by omega)
    (by omega) (fun a ha => absurd ha (by omega)) rfl
  exact ⟨rfl, h.2.1⟩

end StressTsearch
